import Mathlib

/-!
Verification of the DEM acquisition-and-normalization pipeline of the
`sentinel_1_isce3_rtc` notebook: bounding-box correction at high latitude,
tile-band enumeration, tile path naming, the tile fetch loop, mosaic
merging, coverage-guarantee padding (`expand_raster_with_bounds`) and the
vertical-datum conversion.  Coordinates are embedded as rationals; Python
`int` truncation of the nonnegative quantities that appear is `Int.floor`.
-/

/-- Axis-aligned bounding box `(x_min, y_min, x_max, y_max)`, the
`(left, bottom, right, top)` tuples the notebook passes around. -/
structure Bounds where
  left : ℚ
  bottom : ℚ
  right : ℚ
  top : ℚ
deriving DecidableEq

/-- Non-strict box containment: `outer` contains `inner` (the sense in which the
output raster extent must contain the target bounding box). -/
def containsBox (outer inner : Bounds) : Prop :=
  outer.left ≤ inner.left ∧ outer.bottom ≤ inner.bottom ∧
    inner.right ≤ outer.right ∧ inner.top ≤ outer.top

instance (outer inner : Bounds) : Decidable (containsBox outer inner) := by
  unfold containsBox; infer_instance

/-- `box(dem_bounds).contains_properly(box(scene_bounds))`: the inner box lies in
the interior of the outer box, i.e. strict inequalities on all four sides. -/
def containsProperly (outer inner : Bounds) : Prop :=
  outer.left < inner.left ∧ outer.bottom < inner.bottom ∧
    inner.right < outer.right ∧ inner.top < outer.top

instance (outer inner : Bounds) : Decidable (containsProperly outer inner) := by
  unfold containsProperly; infer_instance

/-- Whole-pixel padding count `int(abs(target - edge) / res)` from
`expand_raster_with_bounds`; the argument of `int` is nonnegative there, so
Python truncation toward zero is the floor. -/
def pixCount (target edge res : ℚ) : ℤ :=
  ⌊|target - edge| / res⌋

/-- The bounds arithmetic of `expand_raster_with_bounds`: each side of the
existing raster edge is moved outward by a whole number of pixels,
`new_left = old_left - int(abs(new_left-old_left)/res_x)*res_x` and
symmetrically for the other three sides. -/
def expandBounds (old new : Bounds) (resX resY : ℚ) : Bounds where
  left := old.left - (pixCount new.left old.left resX : ℚ) * resX
  bottom := old.bottom - (pixCount new.bottom old.bottom resY : ℚ) * resY
  right := old.right + (pixCount new.right old.right resX : ℚ) * resX
  top := old.top + (pixCount new.top old.top resY : ℚ) * resY

lemma pixCount_nonneg (target edge res : ℚ) (hres : 0 ≤ res) :
    0 ≤ pixCount target edge res :=
  Int.floor_nonneg.mpr (div_nonneg (abs_nonneg _) hres)

lemma expandBounds_contains (old new : Bounds) (resX resY : ℚ)
    (hx : 0 ≤ resX) (hy : 0 ≤ resY) :
    containsBox (expandBounds old new resX resY) old := by
  have px : (0 : ℚ) ≤ (pixCount new.left old.left resX : ℚ) * resX :=
    mul_nonneg (by exact_mod_cast pixCount_nonneg _ _ _ hx) hx
  have pb : (0 : ℚ) ≤ (pixCount new.bottom old.bottom resY : ℚ) * resY :=
    mul_nonneg (by exact_mod_cast pixCount_nonneg _ _ _ hy) hy
  have pr : (0 : ℚ) ≤ (pixCount new.right old.right resX : ℚ) * resX :=
    mul_nonneg (by exact_mod_cast pixCount_nonneg _ _ _ hx) hx
  have pt : (0 : ℚ) ≤ (pixCount new.top old.top resY : ℚ) * resY :=
    mul_nonneg (by exact_mod_cast pixCount_nonneg _ _ _ hy) hy
  exact ⟨by simp [expandBounds]; linarith, by simp [expandBounds]; linarith,
    by simp [expandBounds]; linarith, by simp [expandBounds]; linarith⟩

/-- The southern-hemisphere branch of the high-latitude bounds adjustment cell:
`if (scene_bounds[1] < -50) or (scene_bounds[3] < -50)` apply the southern
adjustment.  The adjustment itself (`adjust_scene_poly_at_extreme_lat`, which
reprojects through pyproj) is passed in as a function parameter. -/
def correctSouth (adjS : Bounds → Bounds) (b : Bounds) : Bounds :=
  if b.bottom < -50 ∨ b.top < -50 then adjS b else b

/-- The northern-hemisphere branch, applied to the possibly already adjusted
bounds: `if (scene_bounds[1] > 50) or (scene_bounds[3] > 50)`. -/
def correctNorth (adjN : Bounds → Bounds) (b : Bounds) : Bounds :=
  if b.bottom > 50 ∨ b.top > 50 then adjN b else b

/-- The whole high-latitude bounds adjustment cell: the southern check, then the
northern check on its result. -/
def correctBounds (adjS adjN : Bounds → Bounds) (b : Bounds) : Bounds :=
  correctNorth adjN (correctSouth adjS b)

/-- A point of the plane lies inside (or on the edge of) a bounds rectangle;
raster samples are indexed by such points. -/
def coversPt (b : Bounds) (x y : ℚ) : Prop :=
  b.left ≤ x ∧ x ≤ b.right ∧ b.bottom ≤ y ∧ y ≤ b.top

instance (b : Bounds) (x y : ℚ) : Decidable (coversPt b x y) := by
  unfold coversPt; infer_instance

/-- A raster: its extent together with the elevation sample at each point. -/
structure Mosaic where
  bounds : Bounds
  val : ℚ → ℚ → ℚ

/-- `expand_raster_with_bounds` on a mosaic: compute the pixel-aligned expanded
bounds, allocate a canvas filled with `fill`, then
`rasterio.merge.merge(datasets=[tmp, input_raster], method='max')`: inside the
original extent the output sample is the max-combine of the fill canvas and the
original sample, outside it is the fill value. -/
def expandRaster (m : Mosaic) (target : Bounds) (resX resY fill : ℚ) : Mosaic where
  bounds := expandBounds m.bounds target resX resY
  val := fun x y => if coversPt m.bounds x y then max fill (m.val x y) else fill

/-- The call-site guard around the expansion:
`if not box(dem_bounds).contains_properly(box(scene_bounds))` run
`expand_raster_with_bounds`, otherwise keep the raster as is. -/
def expandStep (m : Mosaic) (target : Bounds) (resX resY fill : ℚ) : Mosaic :=
  if containsProperly m.bounds target then m else expandRaster m target resX resY fill

/-- Python `range(a, b)` as a list of integers. -/
def pyRange (a b : ℤ) : List ℤ :=
  (List.range (b - a).toNat).map (fun i : ℕ => a + (i : ℤ))

/-- The tile band enumeration of the locator cell,
`list(range(int(np.floor(min_lat)), int(np.ceil(max_lat+1))))` (the longitude
bands are produced by the same expression on `min_lon`/`max_lon`). -/
def latBands (mn mx : ℚ) : List ℤ :=
  pyRange ⌊mn⌋ ⌈mx + 1⌉

/-- The enumeration the claim describes: integer bands from `floor(min)` to
`ceil(max) + 1` inclusive. -/
def claimedBands (mn mx : ℚ) : List ℤ :=
  pyRange ⌊mn⌋ (⌈mx⌉ + 2)

/-- Union of two extents: the axis-aligned bounding rectangle of both. -/
def unionBounds (a b : Bounds) : Bounds :=
  ⟨min a.left b.left, min a.bottom b.bottom, max a.right b.right, max a.top b.top⟩

/-- Modelled from the spec: the tile merge step.  The notebook merges the
downloaded tiles with `gdal_merge.py -n 0`, an external GDAL utility invoked
through the shell whose implementation is not part of this repository; per the
spec the merge produces one raster whose extent is the union of the input
extents and whose per-pixel value is the maximum across the inputs covering the
pixel, pixels covered by no input carrying the nodata value. -/
def mergeTiles (t0 : Mosaic) (rest : List Mosaic) (nodata : ℚ) : Mosaic where
  bounds := rest.foldl (fun acc t => unionBounds acc t.bounds) t0.bounds
  val := fun x y =>
    match (t0 :: rest).filter (fun t => decide (coversPt t.bounds x y)) with
    | [] => nodata
    | t :: ts => (ts.map (fun u => u.val x y)).foldl max (t.val x y)

/-- Modelled from the spec: `remove_geoid` (from the external dem_stitcher
library, not part of this repository) subtracts the geoid undulation from every
valid elevation sample and leaves nodata/fill samples at the sentinel value. -/
def removeGeoid (dem : Mosaic) (geoid : ℚ → ℚ → ℚ) (nodata : ℚ) : Mosaic where
  bounds := dem.bounds
  val := fun x y => if dem.val x y = nodata then nodata else dem.val x y - geoid x y

/-- Characters of a list up to (and dropping) the first slash. -/
def takeToSlash : List Char → List Char
  | [] => []
  | c :: rest => if c = '/' then [] else c :: takeToSlash rest

/-- Characters of a list after the first slash. -/
def afterSlash : List Char → List Char
  | [] => []
  | c :: rest => if c = '/' then rest else afterSlash rest

/-- `s3_path.split('/')[1]` for the two-component tile keys the notebook
builds, i.e. the file name the tile is stored under in the download folder
(the constant folder prefix of `os.path.join` is dropped). -/
def localName (p : String) : String :=
  String.mk (takeToSlash (afterSlash p.data))

/-- State threaded through the DEM download loop: the files present in the
download folder, the accumulated `dems_to_merge` list, the network downloads
performed, and the `not found` log lines. -/
structure FetchState where
  localFiles : List String
  fetched : List String
  downloads : List String
  logs : List String

/-- One iteration of the DEM download loop: compute `dl_path`; if the file
already exists locally, record it without any network fetch; otherwise attempt
the download — when the key exists in the remote store the file is written and
recorded, and on any failure the `except:` handler only logs `not found`. -/
def fetchOne (store : List String) (st : FetchState) (p : String) : FetchState :=
  if localName p ∈ st.localFiles then
    { st with fetched := st.fetched ++ [localName p] }
  else if p ∈ store then
    { st with localFiles := st.localFiles ++ [localName p],
              fetched := st.fetched ++ [localName p],
              downloads := st.downloads ++ [p] }
  else
    { st with logs := st.logs ++ [p] }

/-- The whole download loop over the de-duplicated `dem_s3_paths`, starting
from the given contents of the download folder. -/
def fetchAll (store cache : List String) (paths : List String) : FetchState :=
  paths.foldl (fetchOne store) ⟨cache, [], [], []⟩

/-- A tile id resolves when its file is already cached or its key exists in the
remote store. -/
def resolves (store cache : List String) (p : String) : Bool :=
  decide (localName p ∈ cache) || decide (p ∈ store)

/-- The decimal digit characters, `Char.ofNat (48 + d)` being `'0'` through
`'9'` for `d < 10`. -/
def digitChar (d : ℕ) : Char := Char.ofNat (48 + d)

/-- Decimal digits of a natural number, most significant first; structural on a
fuel argument that is always sufficient when called through `natRepr`. -/
def natDigitsAux : ℕ → ℕ → List Char
  | 0, _ => []
  | fuel + 1, n =>
    if n < 10 then [digitChar n]
    else natDigitsAux fuel (n / 10) ++ [digitChar (n % 10)]

/-- Decimal representation of a natural number (Python `str`). -/
def natRepr (n : ℕ) : String := String.mk (natDigitsAux (n + 1) n)

/-- Python format `{n:02d}` for nonnegative `n`: zero-pad to width two. -/
def pad2 (n : ℕ) : String := if n < 10 then "0" ++ natRepr n else natRepr n

/-- Python format `{n:03d}` for nonnegative `n`: zero-pad to width three. -/
def pad3 (n : ℕ) : String :=
  if n < 10 then "00" ++ natRepr n else if n < 100 then "0" ++ natRepr n else natRepr n

/-- Hemisphere letter for a latitude band: `"N" if lat >= 0 else "S"`. -/
def latDir (lat : ℤ) : String := if 0 ≤ lat then "N" else "S"

/-- Hemisphere letter for a longitude band: `"E" if long >= 0 else "W"`. -/
def lonDir (lon : ℤ) : String := if 0 ≤ lon then "E" else "W"

/-- The tile stem
`Copernicus_DSM_COG_10_` + lat dir + `{|lat|:02d}` + `_00_` + lon dir +
`{|long|:03d}` + `_00_DEM`, as in the f-string of the `dem_s3_paths` cell. -/
def demTileName (lat lon : ℤ) : String :=
  "Copernicus_DSM_COG_10_" ++ latDir lat ++ pad2 lat.natAbs ++ "_00_" ++
    lonDir lon ++ pad3 lon.natAbs ++ "_00_DEM"

/-- One remote tile key, `stem/stem.tif`. -/
def demS3Path (lat lon : ℤ) : String :=
  demTileName lat lon ++ "/" ++ demTileName lat lon ++ ".tif"

/-- The `dem_s3_paths` cell: the nested `for lat / for long` loops followed by
`list(set(...))` de-duplication. -/
def demS3Paths (lats longs : List ℤ) : List String :=
  ((lats.map (fun lat => longs.map (fun lon => demS3Path lat lon))).flatten).dedup

/-- The path pattern stated by the spec, with the zero-padded magnitudes spelled
out digit by digit: two digits for the latitude, three for the longitude. -/
def twoDigits (n : ℕ) : String :=
  String.singleton (digitChar (n / 10)) ++ String.singleton (digitChar (n % 10))

/-- Three explicit decimal digits, for the zero-padded longitude magnitude. -/
def threeDigits (n : ℕ) : String :=
  String.singleton (digitChar (n / 100)) ++ String.singleton (digitChar (n / 10 % 10))
    ++ String.singleton (digitChar (n % 10))

/-- The tile stem as the spec words it:
`Copernicus_DSM_COG_10_{lat_dir}{|lat|:02d}_00_{lon_dir}{|lon|:03d}_00_DEM`
with hemisphere letters chosen by sign and magnitudes zero-padded to two and
three digits. -/
def specDemTileName (lat lon : ℤ) : String :=
  "Copernicus_DSM_COG_10_" ++ (if 0 ≤ lat then "N" else "S") ++ twoDigits lat.natAbs
    ++ "_00_" ++ (if 0 ≤ lon then "E" else "W") ++ threeDigits lon.natAbs ++ "_00_DEM"

/-- The full remote key as the spec words it. -/
def specDemS3Path (lat lon : ℤ) : String :=
  specDemTileName lat lon ++ "/" ++ specDemTileName lat lon ++ ".tif"

lemma mem_pyRange (a b z : ℤ) : z ∈ pyRange a b ↔ a ≤ z ∧ z < b := by
  show z ∈ (List.range (b - a).toNat).map (fun i : ℕ => a + (i : ℤ)) ↔ _
  rw [List.mem_map]
  constructor
  · rintro ⟨i, hi, rfl⟩
    rw [List.mem_range] at hi
    omega
  · intro h
    refine ⟨(z - a).toNat, ?_, ?_⟩
    · rw [List.mem_range]
      omega
    · omega

/-- Claim C10: `expand_raster_with_bounds` never shrinks the raster — for every
input raster bounds, requested new bounds and positive resolution, the computed
output bounds contain the input bounds on every side, because each side's
padding count comes from an absolute distance and is applied strictly
outward. -/
theorem expandBounds_never_shrinks (old new : Bounds) (resX resY : ℚ)
    (hx : 0 < resX) (hy : 0 < resY) :
    containsBox (expandBounds old new resX resY) old :=
  expandBounds_contains old new resX resY hx.le hy.le

theorem expandBounds_never_shrinks_witness :
    (0 : ℚ) < 1 ∧
      containsBox (expandBounds ⟨0, 0, 1, 1⟩ ⟨-2, -2, 3, 3⟩ 1 1) ⟨0, 0, 1, 1⟩ :=
  ⟨by norm_num, expandBounds_never_shrinks ⟨0, 0, 1, 1⟩ ⟨-2, -2, 3, 3⟩ 1 1
    (by norm_num) (by norm_num)⟩

/-- Claim C1 (code bug): with raster bounds `(0,0,10,10)` at resolution `1 × 1`
and target bounds `(-1/2, 0, 10, 10)` — a target not properly contained in the
raster, so the expansion runs — `expand_raster_with_bounds` truncates the
padding count `int(0.5/1) = 0` and returns the bounds unchanged, so the output
extent does not contain the target bounding box: the claimed reach-or-exceed
property fails off pixel boundaries. -/
theorem expand_raster_with_bounds_undershoots_target :
    ¬ containsProperly ⟨0, 0, 10, 10⟩ ⟨-(1/2), 0, 10, 10⟩ ∧
      expandBounds ⟨0, 0, 10, 10⟩ ⟨-(1/2), 0, 10, 10⟩ 1 1 = ⟨0, 0, 10, 10⟩ ∧
      ¬ containsBox (expandBounds ⟨0, 0, 10, 10⟩ ⟨-(1/2), 0, 10, 10⟩ 1 1)
        ⟨-(1/2), 0, 10, 10⟩ := by
  have hpix : pixCount (-(1/2)) 0 1 = 0 := by
    unfold pixCount
    rw [sub_zero, abs_neg, abs_of_nonneg (by norm_num : (0:ℚ) ≤ 1/2)]
    norm_num
  have hz : ∀ e : ℚ, pixCount e e 1 = 0 := by
    intro e
    unfold pixCount
    rw [sub_self, abs_zero]
    norm_num
  have hexp : expandBounds ⟨0, 0, 10, 10⟩ ⟨-(1/2), 0, 10, 10⟩ 1 1 = ⟨0, 0, 10, 10⟩ := by
    show Bounds.mk _ _ _ _ = _
    rw [Bounds.mk.injEq]
    refine ⟨?_, ?_, ?_, ?_⟩ <;>
      simp only [hpix, hz] <;> norm_num
  refine ⟨?_, hexp, ?_⟩
  · intro h
    exact absurd h.2.2.1 (by norm_num)
  · rw [hexp]
    intro h
    exact absurd h.1 (by norm_num)

/-- Claim C4: for every bounding box whose latitude bounds both have absolute
value at most 50, the high-latitude correction cell leaves the bounds
unchanged, whatever the two hemisphere adjustment functions do. -/
theorem polar_correction_noop_below_threshold (adjS adjN : Bounds → Bounds)
    (b : Bounds) (h1 : |b.bottom| ≤ 50) (h2 : |b.top| ≤ 50) :
    correctBounds adjS adjN b = b := by
  obtain ⟨hb1, _⟩ := abs_le.mp h1
  obtain ⟨ht1, ht2⟩ := abs_le.mp h2
  have hs : correctSouth adjS b = b := by
    unfold correctSouth
    rw [if_neg]
    rintro (h | h) <;> linarith
  unfold correctBounds
  rw [hs]
  unfold correctNorth
  rw [if_neg]
  obtain ⟨_, hb2⟩ := abs_le.mp h1
  rintro (h | h) <;> linarith

theorem polar_correction_noop_below_threshold_witness :
    |(Bounds.mk 100 (-45) 110 (-40)).bottom| ≤ 50 ∧
      |(Bounds.mk 100 (-45) 110 (-40)).top| ≤ 50 ∧
      correctBounds (fun _ => ⟨0, 0, 0, 0⟩) (fun _ => ⟨1, 1, 1, 1⟩)
        ⟨100, -45, 110, -40⟩ = ⟨100, -45, 110, -40⟩ :=
  ⟨by norm_num, by norm_num,
    polar_correction_noop_below_threshold _ _ _ (by norm_num) (by norm_num)⟩

/-- Claim C5, counterexample: for the box with latitude span
`[-17.5, -16.5]`, the cell enumerates bands `[-18, -17, -16]`
(`range(floor(min), ceil(max+1))`, upper end exclusive), not the claimed
`floor(min) .. ceil(max)+1` inclusive, which would additionally contain
`-15`. -/
theorem tile_bands_cex :
    latBands (-35/2) (-33/2) ≠ claimedBands (-35/2) (-33/2) := by
  intro h
  have hfl : ⌊(-35/2 : ℚ)⌋ = -18 := by
    rw [Int.floor_eq_iff]
    norm_num
  have hcl : ⌈(-33/2 : ℚ)⌉ = -16 := by
    rw [Int.ceil_eq_iff]
    norm_num
  have hcl1 : ⌈(-33/2 : ℚ) + 1⌉ = -15 := by
    rw [Int.ceil_eq_iff]
    norm_num
  have hmem : (-15 : ℤ) ∈ claimedBands (-35/2) (-33/2) := by
    rw [claimedBands, mem_pyRange]
    omega
  have hnot : (-15 : ℤ) ∉ latBands (-35/2) (-33/2) := by
    rw [latBands, mem_pyRange]
    rintro ⟨-, hlt⟩
    omega
  exact hnot (h ▸ hmem)

/-- Claim C5, amended: the tile locator enumerates exactly the integer bands
from `floor(min)` to `ceil(max)` inclusive in each axis (so a tile boundary
lying exactly at the maximum coordinate is still included, via the band whose
lower edge is that integer). -/
theorem tile_bands_enumeration (mn mx : ℚ) (z : ℤ) :
    z ∈ latBands mn mx ↔ ⌊mn⌋ ≤ z ∧ z ≤ ⌈mx⌉ := by
  rw [latBands, mem_pyRange, Int.ceil_add_one]
  omega

lemma Bounds.ext4 (p q : Bounds) (h1 : p.left = q.left) (h2 : p.bottom = q.bottom)
    (h3 : p.right = q.right) (h4 : p.top = q.top) : p = q := by
  cases p
  cases q
  simp_all

lemma Mosaic.ext2 (p q : Mosaic) (h1 : p.bounds = q.bounds)
    (h2 : ∀ x y, p.val x y = q.val x y) : p = q := by
  cases p with
  | mk pb pv =>
    cases q with
    | mk qb qv =>
      obtain rfl : pb = qb := h1
      obtain rfl : pv = qv := funext fun x => funext fun y => h2 x y
      rfl

lemma coversPt_mono (outer inner : Bounds) (x y : ℚ) (h : containsBox outer inner)
    (hc : coversPt inner x y) : coversPt outer x y := by
  obtain ⟨a1, a2, a3, a4⟩ := h
  obtain ⟨b1, b2, b3, b4⟩ := hc
  exact ⟨by linarith, by linarith, by linarith, by linarith⟩

lemma pixCount_neg (t e r : ℚ) : pixCount (-t) (-e) r = pixCount t e r := by
  unfold pixCount
  rw [show -t - -e = -(t - e) by ring, abs_neg]

lemma pixCount_eq_zero (t e r : ℚ) (hr : 0 < r) (h : |t - e| < r) :
    pixCount t e r = 0 := by
  unfold pixCount
  exact Int.floor_eq_zero_iff.mpr
    ⟨div_nonneg (abs_nonneg _) hr.le, (div_lt_one hr).mpr h⟩

/-- After one padding pass on an edge, the distance from the padded edge back to
the target bound is less than one pixel, provided the target does not lie a
full pixel or more inside the original edge; hence a second pass pads by zero
pixels. -/
lemma pad_left_stable (o t r : ℚ) (hr : 0 < r) (h : t < o + r) :
    pixCount t (o - (pixCount t o r : ℚ) * r) r = 0 := by
  rcases le_or_lt t o with hto | hto
  · have habs : |t - o| = o - t := by
      rw [abs_sub_comm, abs_of_nonneg (by linarith)]
    have hk : pixCount t o r = ⌊(o - t) / r⌋ := by
      unfold pixCount
      rw [habs]
    have h1 : (⌊(o - t) / r⌋ : ℚ) * r ≤ o - t := by
      have := Int.floor_le ((o - t) / r)
      calc (⌊(o - t) / r⌋ : ℚ) * r ≤ ((o - t) / r) * r := by
            exact mul_le_mul_of_nonneg_right this hr.le
        _ = o - t := by field_simp
    have h2 : o - t < ((⌊(o - t) / r⌋ : ℚ) + 1) * r := by
      have := Int.lt_floor_add_one ((o - t) / r)
      calc o - t = ((o - t) / r) * r := by field_simp
        _ < ((⌊(o - t) / r⌋ : ℚ) + 1) * r := by
            exact mul_lt_mul_of_pos_right this hr
    have habs2 : |t - (o - (pixCount t o r : ℚ) * r)|
        = (o - t) - (⌊(o - t) / r⌋ : ℚ) * r := by
      rw [hk, abs_sub_comm, abs_of_nonneg (by linarith)]
      ring
    apply pixCount_eq_zero _ _ _ hr
    rw [habs2]
    nlinarith
  · have habs : |t - o| = t - o := abs_of_nonneg (by linarith)
    have hk0 : pixCount t o r = 0 := by
      apply pixCount_eq_zero _ _ _ hr
      rw [habs]
      linarith
    rw [hk0]
    push_cast
    rw [zero_mul, sub_zero, hk0]

lemma pad_right_stable (o t r : ℚ) (hr : 0 < r) (h : o - r < t) :
    pixCount t (o + (pixCount t o r : ℚ) * r) r = 0 := by
  have hneg := pad_left_stable (-o) (-t) r hr (by linarith)
  rw [pixCount_neg] at hneg
  rw [show -o - (pixCount t o r : ℚ) * r = -(o + (pixCount t o r : ℚ) * r) by ring]
    at hneg
  rw [pixCount_neg] at hneg
  exact hneg

lemma expandBounds_left (b t : Bounds) (rx ry : ℚ) :
    (expandBounds b t rx ry).left = b.left - (pixCount t.left b.left rx : ℚ) * rx := rfl

lemma expandBounds_bottom (b t : Bounds) (rx ry : ℚ) :
    (expandBounds b t rx ry).bottom
      = b.bottom - (pixCount t.bottom b.bottom ry : ℚ) * ry := rfl

lemma expandBounds_right (b t : Bounds) (rx ry : ℚ) :
    (expandBounds b t rx ry).right
      = b.right + (pixCount t.right b.right rx : ℚ) * rx := rfl

lemma expandBounds_top (b t : Bounds) (rx ry : ℚ) :
    (expandBounds b t rx ry).top = b.top + (pixCount t.top b.top ry : ℚ) * ry := rfl

/-- Expanding bounds a second time toward the same target changes nothing, as
long as no target bound lies a full pixel or more inside the corresponding
original edge. -/
lemma expandBounds_stable (b t : Bounds) (rx ry : ℚ) (hrx : 0 < rx) (hry : 0 < ry)
    (hl : t.left < b.left + rx) (hb : t.bottom < b.bottom + ry)
    (hr : b.right - rx < t.right) (ht : b.top - ry < t.top) :
    expandBounds (expandBounds b t rx ry) t rx ry = expandBounds b t rx ry := by
  apply Bounds.ext4
  · rw [expandBounds_left, expandBounds_left, pad_left_stable b.left t.left rx hrx hl]
    push_cast
    ring
  · rw [expandBounds_bottom, expandBounds_bottom,
      pad_left_stable b.bottom t.bottom ry hry hb]
    push_cast
    ring
  · rw [expandBounds_right, expandBounds_right,
      pad_right_stable b.right t.right rx hrx hr]
    push_cast
    ring
  · rw [expandBounds_top, expandBounds_top, pad_right_stable b.top t.top ry hry ht]
    push_cast
    ring

lemma expandRaster_of_self (m : Mosaic) (t : Bounds) (rx ry f : ℚ)
    (hb : expandBounds m.bounds t rx ry = m.bounds)
    (hge : ∀ x y, coversPt m.bounds x y → f ≤ m.val x y)
    (hout : ∀ x y, ¬ coversPt m.bounds x y → m.val x y = f) :
    expandRaster m t rx ry f = m := by
  apply Mosaic.ext2
  · exact hb
  · intro x y
    show (if coversPt m.bounds x y then max f (m.val x y) else f) = m.val x y
    by_cases hc : coversPt m.bounds x y
    · rw [if_pos hc, max_eq_right (hge x y hc)]
    · rw [if_neg hc]
      exact (hout x y hc).symm

lemma expandStep_bounds (m : Mosaic) (t : Bounds) (rx ry f : ℚ) :
    (expandStep m t rx ry f).bounds
      = if containsProperly m.bounds t then m.bounds
        else expandBounds m.bounds t rx ry := by
  unfold expandStep
  split
  · rfl
  · rfl

/-- Claim C7, counterexample: take the mosaic with bounds `(0,0,10,10)` (all
samples 5), resolution `1 × 1`, fill 0, and target box `(5/2, 0, 10, 10)` —
whose left bound lies 2.5 pixels inside the raster.  The guard does not fire
(the target touches the raster boundary), the padding count is computed from
the absolute distance, so the first expansion moves the left edge out to `-2`
and a second identical call moves it to `-6`: the expansion step is not
idempotent. -/
theorem expand_step_not_idempotent :
    expandStep (expandStep ⟨⟨0, 0, 10, 10⟩, fun _ _ => 5⟩ ⟨5/2, 0, 10, 10⟩ 1 1 0)
        ⟨5/2, 0, 10, 10⟩ 1 1 0
      ≠ expandStep ⟨⟨0, 0, 10, 10⟩, fun _ _ => 5⟩ ⟨5/2, 0, 10, 10⟩ 1 1 0 := by
  have hnc1 : ¬ containsProperly (Bounds.mk 0 0 10 10) ⟨5/2, 0, 10, 10⟩ := by
    rintro ⟨-, h2, -, -⟩
    exact absurd h2 (by norm_num)
  have hpix1 : pixCount (5/2) 0 1 = 2 := by
    unfold pixCount
    rw [sub_zero, abs_of_nonneg (by norm_num : (0:ℚ) ≤ 5/2)]
    norm_num
  have hz : ∀ e : ℚ, pixCount e e 1 = 0 := by
    intro e
    apply pixCount_eq_zero _ _ _ (by norm_num)
    rw [sub_self, abs_zero]
    norm_num
  have hb1 : (expandStep ⟨⟨0, 0, 10, 10⟩, fun _ _ => 5⟩ ⟨5/2, 0, 10, 10⟩ 1 1 0).bounds
      = ⟨-2, 0, 10, 10⟩ := by
    rw [expandStep_bounds]
    show (if containsProperly (Bounds.mk 0 0 10 10) ⟨5/2, 0, 10, 10⟩
        then Bounds.mk 0 0 10 10
        else expandBounds ⟨0, 0, 10, 10⟩ ⟨5/2, 0, 10, 10⟩ 1 1) = _
    rw [if_neg hnc1]
    apply Bounds.ext4
    · rw [expandBounds_left]
      show (0 : ℚ) - (pixCount (5/2) 0 1 : ℚ) * 1 = -2
      rw [hpix1]
      norm_num
    · rw [expandBounds_bottom]
      show (0 : ℚ) - (pixCount 0 0 1 : ℚ) * 1 = 0
      rw [hz]
      norm_num
    · rw [expandBounds_right]
      show (10 : ℚ) + (pixCount 10 10 1 : ℚ) * 1 = 10
      rw [hz]
      norm_num
    · rw [expandBounds_top]
      show (10 : ℚ) + (pixCount 10 10 1 : ℚ) * 1 = 10
      rw [hz]
      norm_num
  intro h
  have hb := congrArg Mosaic.bounds h
  rw [hb1] at hb
  rw [expandStep_bounds, hb1] at hb
  have hnc2 : ¬ containsProperly (Bounds.mk (-2) 0 10 10) ⟨5/2, 0, 10, 10⟩ := by
    rintro ⟨-, h2, -, -⟩
    exact absurd h2 (by norm_num)
  rw [if_neg hnc2] at hb
  have hpix2 : pixCount (5/2) (-2) 1 = 4 := by
    unfold pixCount
    rw [show (5/2 : ℚ) - (-2) = 9/2 by norm_num,
      abs_of_nonneg (by norm_num : (0:ℚ) ≤ 9/2)]
    norm_num
  have hleft := congrArg Bounds.left hb
  rw [expandBounds_left] at hleft
  rw [show (Bounds.mk (-2) 0 10 10).left = (-2 : ℚ) from rfl] at hleft
  rw [show (⟨5/2, 0, 10, 10⟩ : Bounds).left = (5/2 : ℚ) from rfl] at hleft
  rw [hpix2] at hleft
  norm_num at hleft

/-- Claim C7, amended: the expansion step returns the mosaic unchanged when its
extent already strictly contains the target box, and it is idempotent —
`expandStep (expandStep m t f) t f = expandStep m t f` — provided no target
bound lies a full pixel or more inside the corresponding raster edge (the
counterexample shows idempotence fails when one does, because the padding is
computed from the absolute distance and applied outward). -/
theorem expand_step_idempotent_amended (m : Mosaic) (t : Bounds) (rx ry f : ℚ)
    (hrx : 0 < rx) (hry : 0 < ry)
    (hl : t.left < m.bounds.left + rx) (hb : t.bottom < m.bounds.bottom + ry)
    (hr : m.bounds.right - rx < t.right) (ht : m.bounds.top - ry < t.top) :
    expandStep (expandStep m t rx ry f) t rx ry f = expandStep m t rx ry f ∧
      (containsProperly m.bounds t → expandStep m t rx ry f = m) := by
  have hguard : ∀ m' : Mosaic, containsProperly m'.bounds t →
      expandStep m' t rx ry f = m' := by
    intro m' hc
    unfold expandStep
    rw [if_pos hc]
  refine ⟨?_, hguard m⟩
  by_cases hc : containsProperly m.bounds t
  · rw [hguard m hc]
    exact hguard m hc
  · have hstep : expandStep m t rx ry f = expandRaster m t rx ry f := by
      unfold expandStep
      rw [if_neg hc]
    rw [hstep]
    by_cases hc1 : containsProperly (expandRaster m t rx ry f).bounds t
    · exact hguard _ hc1
    · have hstep2 : expandStep (expandRaster m t rx ry f) t rx ry f
          = expandRaster (expandRaster m t rx ry f) t rx ry f := by
        unfold expandStep
        rw [if_neg hc1]
      rw [hstep2]
      apply expandRaster_of_self
      · show expandBounds (expandBounds m.bounds t rx ry) t rx ry
          = expandBounds m.bounds t rx ry
        exact expandBounds_stable m.bounds t rx ry hrx hry hl hb hr ht
      · intro x y _
        show f ≤ (if coversPt m.bounds x y then max f (m.val x y) else f)
        by_cases hcc : coversPt m.bounds x y
        · rw [if_pos hcc]
          exact le_max_left _ _
        · rw [if_neg hcc]
      · intro x y hcov
        show (if coversPt m.bounds x y then max f (m.val x y) else f) = f
        rw [if_neg]
        intro hcc
        apply hcov
        show coversPt (expandBounds m.bounds t rx ry) x y
        exact coversPt_mono _ _ x y
          (expandBounds_contains m.bounds t rx ry hrx.le hry.le) hcc

theorem expand_step_idempotent_amended_witness :
    ((0:ℚ) < 1) ∧
      ((⟨-1, -1, 11, 11⟩ : Bounds).left
        < (⟨⟨0, 0, 10, 10⟩, fun _ _ => 5⟩ : Mosaic).bounds.left + 1) ∧
      ((⟨-1, -1, 11, 11⟩ : Bounds).bottom
        < (⟨⟨0, 0, 10, 10⟩, fun _ _ => 5⟩ : Mosaic).bounds.bottom + 1) ∧
      ((⟨⟨0, 0, 10, 10⟩, fun _ _ => 5⟩ : Mosaic).bounds.right - 1
        < (⟨-1, -1, 11, 11⟩ : Bounds).right) ∧
      ((⟨⟨0, 0, 10, 10⟩, fun _ _ => 5⟩ : Mosaic).bounds.top - 1
        < (⟨-1, -1, 11, 11⟩ : Bounds).top) ∧
      (expandStep (expandStep ⟨⟨0, 0, 10, 10⟩, fun _ _ => 5⟩ ⟨-1, -1, 11, 11⟩ 1 1 0)
            ⟨-1, -1, 11, 11⟩ 1 1 0
          = expandStep ⟨⟨0, 0, 10, 10⟩, fun _ _ => 5⟩ ⟨-1, -1, 11, 11⟩ 1 1 0 ∧
        (containsProperly (⟨⟨0, 0, 10, 10⟩, fun _ _ => 5⟩ : Mosaic).bounds
            ⟨-1, -1, 11, 11⟩ →
          expandStep ⟨⟨0, 0, 10, 10⟩, fun _ _ => 5⟩ ⟨-1, -1, 11, 11⟩ 1 1 0
            = ⟨⟨0, 0, 10, 10⟩, fun _ _ => 5⟩)) :=
  ⟨by norm_num, by norm_num, by norm_num, by norm_num, by norm_num,
    expand_step_idempotent_amended ⟨⟨0, 0, 10, 10⟩, fun _ _ => 5⟩ ⟨-1, -1, 11, 11⟩
      1 1 0 (by norm_num) (by norm_num) (by norm_num) (by norm_num) (by norm_num)
      (by norm_num)⟩

lemma le_foldl_max_init (l : List ℚ) (b : ℚ) : b ≤ l.foldl max b := by
  induction l generalizing b with
  | nil => exact le_refl b
  | cons c cs ih =>
    rw [List.foldl_cons]
    exact le_trans (le_max_left b c) (ih (max b c))

lemma le_foldl_max_mem (l : List ℚ) : ∀ (b a : ℚ), a ∈ l → a ≤ l.foldl max b := by
  induction l with
  | nil =>
    intro b a h
    cases h
  | cons c cs ih =>
    intro b a h
    rw [List.foldl_cons]
    rcases List.mem_cons.mp h with rfl | h'
    · exact le_trans (le_max_right b a) (le_foldl_max_init cs (max b a))
    · exact ih (max b c) a h'

lemma foldl_max_choice (l : List ℚ) : ∀ b : ℚ, l.foldl max b = b ∨ l.foldl max b ∈ l := by
  induction l with
  | nil =>
    intro b
    exact Or.inl rfl
  | cons c cs ih =>
    intro b
    rw [List.foldl_cons]
    rcases ih (max b c) with h | h
    · rcases max_choice b c with hm | hm
      · exact Or.inl (h.trans hm)
      · exact Or.inr (List.mem_cons.mpr (Or.inl (h.trans hm)))
    · exact Or.inr (List.mem_cons_of_mem c h)

lemma containsBox_rfl (b : Bounds) : containsBox b b :=
  ⟨le_refl _, le_refl _, le_refl _, le_refl _⟩

lemma containsBox_trans (a b c : Bounds) (h1 : containsBox a b) (h2 : containsBox b c) :
    containsBox a c :=
  ⟨le_trans h1.1 h2.1, le_trans h1.2.1 h2.2.1, le_trans h2.2.2.1 h1.2.2.1,
    le_trans h2.2.2.2 h1.2.2.2⟩

lemma unionBounds_contains_left (a b : Bounds) : containsBox (unionBounds a b) a :=
  ⟨min_le_left _ _, min_le_left _ _, le_max_left _ _, le_max_left _ _⟩

lemma unionBounds_contains_right (a b : Bounds) : containsBox (unionBounds a b) b :=
  ⟨min_le_right _ _, min_le_right _ _, le_max_right _ _, le_max_right _ _⟩

lemma unionBounds_least (a b bb : Bounds) (h1 : containsBox bb a) (h2 : containsBox bb b) :
    containsBox bb (unionBounds a b) :=
  ⟨le_min h1.1 h2.1, le_min h1.2.1 h2.2.1, max_le h1.2.2.1 h2.2.2.1,
    max_le h1.2.2.2 h2.2.2.2⟩

lemma foldl_union_contains_acc (rest : List Mosaic) : ∀ acc : Bounds,
    containsBox (rest.foldl (fun acc t => unionBounds acc t.bounds) acc) acc := by
  induction rest with
  | nil =>
    intro acc
    exact containsBox_rfl acc
  | cons c cs ih =>
    intro acc
    rw [List.foldl_cons]
    exact containsBox_trans _ _ _ (ih (unionBounds acc c.bounds))
      (unionBounds_contains_left acc c.bounds)

lemma foldl_union_contains_mem (rest : List Mosaic) : ∀ (acc : Bounds) (t : Mosaic),
    t ∈ rest →
    containsBox (rest.foldl (fun acc t => unionBounds acc t.bounds) acc) t.bounds := by
  induction rest with
  | nil =>
    intro acc t h
    cases h
  | cons c cs ih =>
    intro acc t h
    rw [List.foldl_cons]
    rcases List.mem_cons.mp h with rfl | h'
    · exact containsBox_trans _ _ _ (foldl_union_contains_acc cs (unionBounds acc t.bounds))
        (unionBounds_contains_right acc t.bounds)
    · exact ih _ t h'

lemma foldl_union_least (rest : List Mosaic) : ∀ (acc bb : Bounds),
    containsBox bb acc → (∀ t ∈ rest, containsBox bb t.bounds) →
    containsBox bb (rest.foldl (fun acc t => unionBounds acc t.bounds) acc) := by
  induction rest with
  | nil =>
    intro acc bb h _
    exact h
  | cons c cs ih =>
    intro acc bb h hall
    rw [List.foldl_cons]
    exact ih _ bb (unionBounds_least _ _ _ h (hall c (List.mem_cons_self c cs)))
      (fun t ht => hall t (List.mem_cons_of_mem c ht))

lemma mergeTiles_bounds (t0 : Mosaic) (rest : List Mosaic) (nodata : ℚ) :
    (mergeTiles t0 rest nodata).bounds
      = rest.foldl (fun acc t => unionBounds acc t.bounds) t0.bounds := rfl

lemma mergeTiles_val (t0 : Mosaic) (rest : List Mosaic) (nodata x y : ℚ) :
    (mergeTiles t0 rest nodata).val x y
      = match (t0 :: rest).filter (fun u => decide (coversPt u.bounds x y)) with
        | [] => nodata
        | u :: us => (us.map (fun w => w.val x y)).foldl max (u.val x y) := rfl

set_option maxHeartbeats 1000000 in
/-- Claim C3 (merge semantics modelled from the spec, `gdal_merge.py` being an
external utility): for every nonempty set of input tiles, the merged raster's
sample at a point is an upper bound of every covering input's sample and is
attained by one of the covering inputs — i.e. wherever one or more tiles
(in particular more than one) cover the same pixel, the merged value is the
maximum of the overlapping input values — and the output extent contains every
input extent and is contained in any box containing all of them, i.e. it is
exactly the union of all input extents. -/
theorem tile_merge_max_union :
    (∀ (t0 : Mosaic) (rest : List Mosaic) (nodata x y : ℚ) (t : Mosaic),
        t ∈ t0 :: rest → coversPt t.bounds x y →
        t.val x y ≤ (mergeTiles t0 rest nodata).val x y) ∧
      (∀ (t0 : Mosaic) (rest : List Mosaic) (nodata x y : ℚ) (t : Mosaic),
        t ∈ t0 :: rest → coversPt t.bounds x y →
        ∃ u, u ∈ t0 :: rest ∧ coversPt u.bounds x y ∧
          (mergeTiles t0 rest nodata).val x y = u.val x y) ∧
      (∀ (t0 : Mosaic) (rest : List Mosaic) (nodata : ℚ) (t : Mosaic),
        t ∈ t0 :: rest →
        containsBox (mergeTiles t0 rest nodata).bounds t.bounds) ∧
      (∀ (t0 : Mosaic) (rest : List Mosaic) (nodata : ℚ) (bb : Bounds),
        (∀ t ∈ t0 :: rest, containsBox bb t.bounds) →
        containsBox bb (mergeTiles t0 rest nodata).bounds) := by
  refine ⟨?_, ?_, ?_, ?_⟩
  · intro t0 rest nodata x y t ht hcov
    have htf : t ∈ (t0 :: rest).filter (fun u => decide (coversPt u.bounds x y)) :=
      List.mem_filter.mpr ⟨ht, decide_eq_true hcov⟩
    rw [mergeTiles_val]
    cases hfe : (t0 :: rest).filter (fun u => decide (coversPt u.bounds x y)) with
    | nil =>
      rw [hfe] at htf
      cases htf
    | cons u us =>
      rw [hfe] at htf
      rcases List.mem_cons.mp htf with rfl | hmem
      · exact le_foldl_max_init (us.map (fun w => w.val x y)) (t.val x y)
      · exact le_foldl_max_mem (us.map (fun w => w.val x y)) (u.val x y) (t.val x y)
          (List.mem_map.mpr ⟨t, hmem, rfl⟩)
  · intro t0 rest nodata x y t ht hcov
    have htf : t ∈ (t0 :: rest).filter (fun u => decide (coversPt u.bounds x y)) :=
      List.mem_filter.mpr ⟨ht, decide_eq_true hcov⟩
    have hval : ∀ (u : Mosaic) (us : List Mosaic),
        (t0 :: rest).filter (fun u => decide (coversPt u.bounds x y)) = u :: us →
        (mergeTiles t0 rest nodata).val x y
          = (us.map (fun w => w.val x y)).foldl max (u.val x y) := by
      intro u us hfe
      rw [mergeTiles_val, hfe]
    cases hfe : (t0 :: rest).filter (fun u => decide (coversPt u.bounds x y)) with
    | nil =>
      rw [hfe] at htf
      cases htf
    | cons u us =>
      have hu : u ∈ t0 :: rest ∧ coversPt u.bounds x y := by
        have hmem : u ∈ (t0 :: rest).filter (fun w => decide (coversPt w.bounds x y)) := by
          rw [hfe]
          exact List.mem_cons_self u us
        have h2 := List.mem_filter.mp hmem
        exact ⟨h2.1, of_decide_eq_true h2.2⟩
      rcases foldl_max_choice (us.map (fun w => w.val x y)) (u.val x y) with hch | hch
      · exact ⟨u, hu.1, hu.2, (hval u us hfe).trans hch⟩
      · obtain ⟨w, hw, hwv⟩ := List.mem_map.mp hch
        have hwc : w ∈ t0 :: rest ∧ coversPt w.bounds x y := by
          have hmem : w ∈ (t0 :: rest).filter (fun v => decide (coversPt v.bounds x y)) := by
            rw [hfe]
            exact List.mem_cons_of_mem u hw
          have h2 := List.mem_filter.mp hmem
          exact ⟨h2.1, of_decide_eq_true h2.2⟩
        exact ⟨w, hwc.1, hwc.2, (hval u us hfe).trans hwv.symm⟩
  · intro t0 rest nodata t ht
    rw [mergeTiles_bounds]
    rcases List.mem_cons.mp ht with rfl | h'
    · exact foldl_union_contains_acc rest t.bounds
    · exact foldl_union_contains_mem rest t0.bounds t h'
  · intro t0 rest nodata bb hall
    rw [mergeTiles_bounds]
    exact foldl_union_least rest t0.bounds bb (hall t0 (List.mem_cons_self t0 rest))
      (fun t ht => hall t (List.mem_cons_of_mem t0 ht))

theorem tile_merge_max_union_witness :
    coversPt (Bounds.mk 130 (-16) 131 (-15)) (261/2) (-16) ∧
      coversPt (Bounds.mk 130 (-17) 131 (-16)) (261/2) (-16) ∧
      ((⟨⟨130, -17, 131, -16⟩, fun _ _ => 7⟩ : Mosaic).val (261/2) (-16)
        ≤ (mergeTiles ⟨⟨130, -16, 131, -15⟩, fun _ _ => 5⟩
            [⟨⟨130, -17, 131, -16⟩, fun _ _ => 7⟩] 0).val (261/2) (-16)) ∧
      (∃ u, u ∈ (⟨⟨130, -16, 131, -15⟩, fun _ _ => 5⟩ : Mosaic)
            :: [(⟨⟨130, -17, 131, -16⟩, fun _ _ => 7⟩ : Mosaic)] ∧
          coversPt u.bounds (261/2) (-16) ∧
          (mergeTiles ⟨⟨130, -16, 131, -15⟩, fun _ _ => 5⟩
              [⟨⟨130, -17, 131, -16⟩, fun _ _ => 7⟩] 0).val (261/2) (-16)
            = u.val (261/2) (-16)) ∧
      containsBox (mergeTiles ⟨⟨130, -16, 131, -15⟩, fun _ _ => 5⟩
          [⟨⟨130, -17, 131, -16⟩, fun _ _ => 7⟩] 0).bounds
        (Bounds.mk 130 (-17) 131 (-16)) ∧
      containsBox (Bounds.mk 130 (-17) 131 (-15))
        (mergeTiles ⟨⟨130, -16, 131, -15⟩, fun _ _ => 5⟩
          [⟨⟨130, -17, 131, -16⟩, fun _ _ => 7⟩] 0).bounds :=
  ⟨by norm_num [coversPt], by norm_num [coversPt],
    tile_merge_max_union.1 _ _ 0 (261/2) (-16) _
      (List.mem_cons_of_mem _ (List.mem_cons_self _ _)) (by norm_num [coversPt]),
    tile_merge_max_union.2.1 _ _ 0 (261/2) (-16)
      ⟨⟨130, -16, 131, -15⟩, fun _ _ => 5⟩ (List.mem_cons_self _ _)
      (by norm_num [coversPt]),
    tile_merge_max_union.2.2.1 _ _ 0 _
      (List.mem_cons_of_mem _ (List.mem_cons_self _ _)),
    tile_merge_max_union.2.2.2 _ _ 0 ⟨130, -17, 131, -15⟩
      (by
        intro t ht
        rcases List.mem_cons.mp ht with rfl | ht'
        · norm_num [containsBox]
        · rcases List.mem_cons.mp ht' with rfl | ht''
          · norm_num [containsBox]
          · cases ht'')⟩

/-- Claim C6 (conversion semantics modelled from the spec, `remove_geoid` being
part of the external dem_stitcher library): the vertical-datum conversion
subtracts the geoid undulation from every valid sample, leaves nodata samples
at the sentinel, and on a constant-100 DEM with constant undulation 30 every
valid sample becomes 70 while every fill sample keeps the sentinel. -/
theorem remove_geoid_spec :
    (∀ (dem : Mosaic) (g : ℚ → ℚ → ℚ) (nodata x y : ℚ),
        dem.val x y = nodata → (removeGeoid dem g nodata).val x y = nodata) ∧
      (∀ (dem : Mosaic) (g : ℚ → ℚ → ℚ) (nodata x y : ℚ),
        dem.val x y ≠ nodata →
          (removeGeoid dem g nodata).val x y = dem.val x y - g x y) ∧
      (∀ (bb : Bounds) (mask : ℚ → ℚ → Bool) (nodata : ℚ), nodata ≠ 100 →
        ∀ x y,
          (removeGeoid ⟨bb, fun x y => if mask x y then nodata else 100⟩
              (fun _ _ => 30) nodata).val x y
            = if mask x y then nodata else 70) := by
  refine ⟨?_, ?_, ?_⟩
  · intro dem g nodata x y h
    show (if dem.val x y = nodata then nodata else dem.val x y - g x y) = nodata
    rw [if_pos h]
  · intro dem g nodata x y h
    show (if dem.val x y = nodata then nodata else dem.val x y - g x y)
      = dem.val x y - g x y
    rw [if_neg h]
  · intro bb mask nodata hnod x y
    show (if (if mask x y then nodata else 100) = nodata then nodata
        else (if mask x y then nodata else 100) - 30)
      = if mask x y then nodata else 70
    cases hm : mask x y
    · rw [if_neg]
      · norm_num
      · intro hh
        exact hnod hh.symm
    · simp

theorem remove_geoid_spec_witness :
    ((-9999 : ℚ) ≠ 100) ∧
      (removeGeoid
          ⟨⟨0, 0, 1, 1⟩, fun x y => if (fun u _ => decide (u < (0:ℚ))) x y
            then -9999 else 100⟩
          (fun _ _ => 30) (-9999)).val (-1) 0
        = if (fun u _ => decide (u < (0:ℚ))) (-1 : ℚ) (0 : ℚ) then -9999 else 70 :=
  ⟨by norm_num,
    remove_geoid_spec.2.2 ⟨0, 0, 1, 1⟩ (fun u _ => decide (u < (0:ℚ))) (-9999)
      (by norm_num) (-1) 0⟩

lemma natDigitsAux_small (fuel n : ℕ) (hf : 0 < fuel) (h : n < 10) :
    natDigitsAux fuel n = [digitChar n] := by
  cases fuel with
  | zero => omega
  | succ f =>
    unfold natDigitsAux
    rw [if_pos h]

lemma natDigitsAux_two (fuel n : ℕ) (hf : n < fuel) (h1 : 10 ≤ n) (h2 : n < 100) :
    natDigitsAux fuel n = [digitChar (n / 10), digitChar (n % 10)] := by
  cases fuel with
  | zero => omega
  | succ f =>
    unfold natDigitsAux
    rw [if_neg (by omega)]
    rw [natDigitsAux_small f (n / 10) (by omega) (by omega)]
    rfl

lemma natRepr_small (n : ℕ) (h : n < 10) :
    natRepr n = String.singleton (digitChar n) := by
  unfold natRepr
  rw [natDigitsAux_small (n + 1) n (by omega) h]
  rfl

lemma natRepr_two (n : ℕ) (h1 : 10 ≤ n) (h2 : n < 100) :
    natRepr n
      = String.singleton (digitChar (n / 10)) ++ String.singleton (digitChar (n % 10)) := by
  unfold natRepr
  rw [natDigitsAux_two (n + 1) n (by omega) h1 h2]
  rfl

lemma natRepr_three (n : ℕ) (h1 : 100 ≤ n) (h2 : n < 1000) :
    natRepr n
      = String.singleton (digitChar (n / 100)) ++ String.singleton (digitChar (n / 10 % 10))
          ++ String.singleton (digitChar (n % 10)) := by
  unfold natRepr
  unfold natDigitsAux
  rw [if_neg (by omega)]
  rw [natDigitsAux_two n (n / 10) (by omega) (by omega) (by omega)]
  rw [Nat.div_div_eq_div_mul]
  rfl

lemma pad2_eq (n : ℕ) (h : n < 100) : pad2 n = twoDigits n := by
  unfold pad2 twoDigits
  by_cases h10 : n < 10
  · rw [if_pos h10, natRepr_small n h10]
    have e1 : n / 10 = 0 := by omega
    have e2 : n % 10 = n := by omega
    rw [e1, e2]
    have h0 : ("0" : String) = String.singleton (digitChar 0) := by decide
    rw [h0]
  · rw [if_neg h10, natRepr_two n (by omega) h]

lemma pad3_eq (n : ℕ) (h : n < 1000) : pad3 n = threeDigits n := by
  unfold pad3 threeDigits
  by_cases h10 : n < 10
  · rw [if_pos h10, natRepr_small n h10]
    have e1 : n / 100 = 0 := by omega
    have e2 : n / 10 % 10 = 0 := by omega
    have e3 : n % 10 = n := by omega
    rw [e1, e2, e3]
    have h0 : ("00" : String)
        = String.singleton (digitChar 0) ++ String.singleton (digitChar 0) := by decide
    rw [h0]
  · by_cases h100 : n < 100
    · rw [if_neg h10, if_pos h100, natRepr_two n (by omega) h100]
      have e1 : n / 100 = 0 := by omega
      have e2 : n / 10 % 10 = n / 10 := by omega
      rw [e1, e2]
      have h0 : ("0" : String) = String.singleton (digitChar 0) := by decide
      rw [h0, ← String.append_assoc]
    · rw [if_neg h10, if_neg h100, natRepr_three n (by omega) h]

/-- Claim C9: the generated remote tile path follows the spec's naming rule
exactly — hemisphere letters by sign, latitude magnitude zero-padded to two
digits, longitude magnitude to three, in the pattern
`Copernicus_DSM_COG_10_{lat_dir}{lat:02d}_00_{lon_dir}{lon:03d}_00_DEM/{stem}.tif`
— and the generated path list is de-duplicated while still containing the path
of every enumerated band pair. -/
theorem dem_tile_path_naming (lat lon : ℤ)
    (hlat : lat.natAbs < 100) (hlon : lon.natAbs < 1000) :
    demS3Path lat lon = specDemS3Path lat lon ∧
      (∀ lats longs : List ℤ, (demS3Paths lats longs).Nodup) ∧
      (∀ lats longs : List ℤ, lat ∈ lats → lon ∈ longs →
        demS3Path lat lon ∈ demS3Paths lats longs) := by
  have hname : demTileName lat lon = specDemTileName lat lon := by
    unfold demTileName specDemTileName latDir lonDir
    rw [pad2_eq lat.natAbs hlat, pad3_eq lon.natAbs hlon]
  refine ⟨?_, ?_, ?_⟩
  · unfold demS3Path specDemS3Path
    rw [hname]
  · intro lats longs
    exact List.nodup_dedup _
  · intro lats longs hla hlo
    unfold demS3Paths
    rw [List.mem_dedup]
    refine List.mem_flatten.mpr ⟨longs.map (fun lon => demS3Path lat lon), ?_, ?_⟩
    · exact List.mem_map.mpr ⟨lat, hla, rfl⟩
    · exact List.mem_map.mpr ⟨lon, hlo, rfl⟩

theorem dem_tile_path_naming_witness :
    ((-16 : ℤ).natAbs < 100) ∧ ((130 : ℤ).natAbs < 1000) ∧
      (demS3Path (-16) 130 = specDemS3Path (-16) 130 ∧
        (∀ lats longs : List ℤ, (demS3Paths lats longs).Nodup) ∧
        (∀ lats longs : List ℤ, (-16 : ℤ) ∈ lats → (130 : ℤ) ∈ longs →
          demS3Path (-16) 130 ∈ demS3Paths lats longs)) :=
  ⟨by decide, by decide, dem_tile_path_naming (-16) 130 (by decide) (by decide)⟩

lemma fetch_go (store cache : List String) :
    ∀ (paths : List String) (st : FetchState),
      (paths.map localName).Nodup →
      (∀ p ∈ paths, (localName p ∈ st.localFiles ↔ localName p ∈ cache)) →
      (paths.foldl (fetchOne store) st).fetched
          = st.fetched ++ (paths.filter (resolves store cache)).map localName ∧
        (paths.foldl (fetchOne store) st).logs
          = st.logs ++ paths.filter (fun p => !(resolves store cache p)) ∧
        (paths.foldl (fetchOne store) st).downloads
          = st.downloads ++ paths.filter
              (fun p => !decide (localName p ∈ cache) && decide (p ∈ store)) := by
  intro paths
  induction paths with
  | nil =>
    intro st _ _
    simp
  | cons p rest ih =>
    intro st hnd hinv
    rw [List.map_cons, List.nodup_cons] at hnd
    obtain ⟨hnd1, hnd2⟩ := hnd
    have hmemp := hinv p (List.mem_cons_self p rest)
    by_cases hloc : localName p ∈ st.localFiles
    · have hcache : localName p ∈ cache := hmemp.mp hloc
      have hres : resolves store cache p = true := by
        simp [resolves, hcache]
      have hstep : fetchOne store st p = { st with fetched := st.fetched ++ [localName p] } := by
        unfold fetchOne
        rw [if_pos hloc]
      obtain ⟨ih1, ih2, ih3⟩ :=
        ih { st with fetched := st.fetched ++ [localName p] } hnd2
          (fun q hq => hinv q (List.mem_cons_of_mem p hq))
      rw [List.foldl_cons, hstep]
      refine ⟨?_, ?_, ?_⟩
      · rw [ih1]
        simp [List.filter_cons, hres, hcache]
      · rw [ih2]
        simp [List.filter_cons, hres]
      · rw [ih3]
        simp [List.filter_cons, hcache]
    · have hcache : localName p ∉ cache := fun hc => hloc (hmemp.mpr hc)
      have hinv' : ∀ st' : FetchState, st'.localFiles = st.localFiles ++ [localName p] →
          ∀ q ∈ rest, (localName q ∈ st'.localFiles ↔ localName q ∈ cache) := by
        intro st' hst' q hq
        have hne : localName q ≠ localName p := by
          intro he
          exact hnd1 (he ▸ List.mem_map.mpr ⟨q, hq, rfl⟩)
        rw [hst']
        constructor
        · intro h'
          rcases List.mem_append.mp h' with h'' | h''
          · exact (hinv q (List.mem_cons_of_mem p hq)).mp h''
          · exact absurd (List.mem_singleton.mp h'') hne
        · intro h'
          exact List.mem_append.mpr
            (Or.inl ((hinv q (List.mem_cons_of_mem p hq)).mpr h'))
      by_cases hstore : p ∈ store
      · have hres : resolves store cache p = true := by
          simp [resolves, hstore]
        have hstep : fetchOne store st p
            = { st with localFiles := st.localFiles ++ [localName p],
                        fetched := st.fetched ++ [localName p],
                        downloads := st.downloads ++ [p] } := by
          unfold fetchOne
          rw [if_neg hloc, if_pos hstore]
        obtain ⟨ih1, ih2, ih3⟩ :=
          ih { st with localFiles := st.localFiles ++ [localName p],
                       fetched := st.fetched ++ [localName p],
                       downloads := st.downloads ++ [p] } hnd2
            (hinv' _ rfl)
        rw [List.foldl_cons, hstep]
        refine ⟨?_, ?_, ?_⟩
        · rw [ih1]
          simp [List.filter_cons, hres]
        · rw [ih2]
          simp [List.filter_cons, hres]
        · rw [ih3]
          simp [List.filter_cons, hcache, hstore]
      · have hres : resolves store cache p = false := by
          simp [resolves, hcache, hstore]
        have hstep : fetchOne store st p = { st with logs := st.logs ++ [p] } := by
          unfold fetchOne
          rw [if_neg hloc, if_neg hstore]
        obtain ⟨ih1, ih2, ih3⟩ :=
          ih { st with logs := st.logs ++ [p] } hnd2
            (fun q hq => hinv q (List.mem_cons_of_mem p hq))
        rw [List.foldl_cons, hstep]
        refine ⟨?_, ?_, ?_⟩
        · rw [ih1]
          simp [List.filter_cons, hres]
        · rw [ih2]
          simp [List.filter_cons, hres]
        · rw [ih3]
          simp [List.filter_cons, hcache, hstore]

/-- Claim C8: for every list of tile keys with distinct local names, the fetch
loop records exactly one local path per key that resolves (already cached or
present in the remote store), in order; keys with no remote object are dropped
from the result but logged (the loop is a total function — no failure aborts
it); and a key whose file already exists locally triggers no network fetch. -/
theorem dem_fetch_loop_spec (store cache paths : List String)
    (hnd : (paths.map localName).Nodup) :
    (fetchAll store cache paths).fetched
        = (paths.filter (resolves store cache)).map localName ∧
      (fetchAll store cache paths).logs
        = paths.filter (fun p => !(resolves store cache p)) ∧
      (∀ p, localName p ∈ cache → p ∉ (fetchAll store cache paths).downloads) := by
  obtain ⟨h1, h2, h3⟩ :=
    fetch_go store cache paths ⟨cache, [], [], []⟩ hnd (fun _ _ => Iff.rfl)
  refine ⟨by simpa using h1, by simpa using h2, ?_⟩
  intro p hp hmem
  unfold fetchAll at hmem
  rw [h3] at hmem
  simp only [List.nil_append] at hmem
  have := List.of_mem_filter hmem
  simp [hp] at this

theorem dem_fetch_loop_spec_witness :
    ((["A/A.tif", "B/B.tif", "C/C.tif"].map localName).Nodup) ∧
      ((fetchAll ["B/B.tif"] ["A.tif"] ["A/A.tif", "B/B.tif", "C/C.tif"]).fetched
          = ((["A/A.tif", "B/B.tif", "C/C.tif"].filter
              (resolves ["B/B.tif"] ["A.tif"])).map localName) ∧
        (fetchAll ["B/B.tif"] ["A.tif"] ["A/A.tif", "B/B.tif", "C/C.tif"]).logs
          = ["A/A.tif", "B/B.tif", "C/C.tif"].filter
              (fun p => !(resolves ["B/B.tif"] ["A.tif"] p)) ∧
        (∀ p, localName p ∈ ["A.tif"] →
          p ∉ (fetchAll ["B/B.tif"] ["A.tif"]
                ["A/A.tif", "B/B.tif", "C/C.tif"]).downloads)) :=
  ⟨by decide, dem_fetch_loop_spec ["B/B.tif"] ["A.tif"]
    ["A/A.tif", "B/B.tif", "C/C.tif"] (by decide)⟩
